import Mathlib

/-!
Verification of the gdpr-mcp hybrid-search core against its specification.

Shallow embedding conventions:
* Go strings are modelled as `List Char` (sequences of Unicode code points);
  operations that Go performs on raw bytes (UTF-8) are modelled through the
  explicit functions `utf8Size` / `byteLen` / `utf8Bytes`.
* Go `float32`/`float64` values are modelled as exact rationals `ℚ`; the claims
  settled here concern control flow (guards, lengths, ordering by comparisons,
  ranking formulas), none of which depend on rounding.
* The SQLite store is modelled as an explicit in-memory list of rows.
* Functions whose Go originals may fail or diverge return `Option`.
-/

namespace GdprMcp

/-- UTF-8 encoded size in bytes of one code point (Go `utf8.RuneLen` for valid runes). -/
def utf8Size (c : Char) : Nat :=
  if c.toNat < 0x80 then 1
  else if c.toNat < 0x800 then 2
  else if c.toNat < 0x10000 then 3
  else 4

/-- Byte length of a Go string (`len(s)` in Go), given its code points. -/
def byteLen (s : List Char) : Nat :=
  (s.map utf8Size).sum

/-- UTF-8 encoding of one code point as its byte values. -/
def utf8EncodeChar (c : Char) : List Nat :=
  let n := c.toNat
  if n < 0x80 then [n]
  else if n < 0x800 then [0xC0 + n / 0x40, 0x80 + n % 0x40]
  else if n < 0x10000 then [0xE0 + n / 0x1000, 0x80 + (n / 0x40) % 0x40, 0x80 + n % 0x40]
  else [0xF0 + n / 0x40000, 0x80 + (n / 0x1000) % 0x40, 0x80 + (n / 0x40) % 0x40, 0x80 + n % 0x40]

/-- The raw bytes of a Go string (UTF-8 encoding of its code points). -/
def utf8Bytes (s : List Char) : List Nat :=
  (s.map utf8EncodeChar).flatten

/-- Models Go `unicode.IsSpace`: the Unicode White_Space property. -/
def goIsSpace (c : Char) : Bool :=
  c == '\t' || c == '\n' || c == '\x0B' || c == '\x0C' || c == '\r' || c == ' ' ||
  c.toNat == 0x85 || c.toNat == 0xA0 || c.toNat == 0x1680 ||
  (0x2000 ≤ c.toNat && c.toNat ≤ 0x200A) ||
  c.toNat == 0x2028 || c.toNat == 0x2029 || c.toNat == 0x202F ||
  c.toNat == 0x205F || c.toNat == 0x3000

/-- Models Go `unicode.ToLower` as a code-point-to-code-point map.  The Lean
ASCII table stands in for Go's full simple case-mapping table; every theorem
below is invariant under the choice of this map. -/
def goToLower (c : Char) : Char :=
  c.toLower

/-- Models Go `strings.TrimSpace`: remove leading and trailing white space. -/
def goTrimSpace (s : List Char) : List Char :=
  ((s.dropWhile goIsSpace).reverse.dropWhile goIsSpace).reverse

/-- First-occurrence deduplication with an explicit `seen` accumulator,
modelling the `seen` map in `GenerateTrigrams`. -/
def dedupFirst {α : Type} [DecidableEq α] : List α → List α → List α
  | _, [] => []
  | seen, t :: ts => if t ∈ seen then dedupFirst seen ts else t :: dedupFirst (t :: seen) ts

/-- The sliding 3-code-point windows of a rune slice
(`runes[i : i+3]` for `0 ≤ i ≤ len(runes)-3` in `GenerateTrigrams`). -/
def triWindows (runes : List Char) : List (List Char) :=
  (List.range (runes.length - 2)).map (fun i => (runes.drop i).take 3)

/-- Embeds `db.GenerateTrigrams`: lower-case, trim, return `nil` when fewer
than 3 bytes remain, else collect distinct 3-code-point windows in first
occurrence order. -/
def GenerateTrigrams (s0 : List Char) : List (List Char) :=
  if byteLen (goTrimSpace (s0.map goToLower)) < 3 then []
  else dedupFirst [] (triWindows (goTrimSpace (s0.map goToLower)))

/-- Models Go `strings.ReplaceAll(text, "\r\n", "\n")` (left-to-right,
non-overlapping). -/
def normalizeCRLF : List Char → List Char
  | [] => []
  | '\r' :: '\n' :: rest => '\n' :: normalizeCRLF rest
  | c :: rest => c :: normalizeCRLF rest

/-- Downward scan `for i := hi; i > hi - n; i--` looking for the first (i.e.
largest) index whose character satisfies `p`; returns that index. -/
def scanBackAux (rs : List Char) (p : Char → Bool) : Nat → Nat → Option Nat
  | 0, _ => none
  | n + 1, i => if p (rs.getD i '\x00') then some i else scanBackAux rs p n (i - 1)

/-- The Go loop `for i := hi; i > lo; i--` returning the first index found. -/
def scanBack (rs : List Char) (p : Char → Bool) (lo hi : Nat) : Option Nat :=
  scanBackAux rs p (hi - lo) hi

/-- Character test for a sentence boundary in `chunkText`. -/
def isSentB (c : Char) : Bool :=
  c == '.' || c == '\n'

/-- The boundary-adjusted window end computed by one iteration of the
`chunkText` loop: raw end `min (start+size) len`, pulled back to just after a
sentence terminator found in the back half, else to a space found in the back
half (the space scan runs whenever the end equals the raw `start+size`
boundary, which mirrors the Go condition exactly), else the raw end. -/
def nextEnd (size : Nat) (rs : List Char) (start : Nat) : Nat :=
  let len := rs.length
  let e0 := if len < start + size then len else start + size
  if e0 < len then
    let mid := start + size / 2
    let e1 :=
      match scanBack rs isSentB mid e0 with
      | some i => i + 1
      | none => e0
    if e1 = start + size ∧ e1 < len then
      match scanBack rs (fun c => c == ' ') mid e1 with
      | some i => i
      | none => e1
    else e1
  else e0

/-- The next window start computed by `chunkText`: `end - overlap`, clamped to
zero (Nat subtraction models the clamp). -/
def nextStart (size ov : Nat) (rs : List Char) (start : Nat) : Nat :=
  nextEnd size rs start - ov

/-- The `chunkText` walking loop.  `fuel` is a modelling artifact bounding the
number of iterations: the Go loop has no fuel and simply may not terminate;
`none` means the fuel was exhausted before the loop finished. -/
def chunkLoop (size ov : Nat) (rs : List Char) : Nat → Nat → Option (List (List Char))
  | 0, _ => none
  | fuel + 1, start =>
    let e := nextEnd size rs start
    let piece := goTrimSpace ((rs.drop start).take (e - start))
    if rs.length ≤ e then
      some (if piece.isEmpty then [] else [piece])
    else
      match chunkLoop size ov rs fuel (e - ov) with
      | none => none
      | some rest => some (if piece.isEmpty then rest else piece :: rest)

/-- Embeds `ingest.chunkText`: trim, normalize line endings, then walk the
text in boundary-adjusted windows collecting trimmed non-empty pieces.
The fuel `length + 1` is enough for every terminating run of the Go loop,
since any forward progress moves `start` by at least one. -/
def chunkText (size ov : Nat) (text : List Char) : Option (List (List Char)) :=
  let t := normalizeCRLF (goTrimSpace text)
  if t.length = 0 then some []
  else chunkLoop size ov t (t.length + 1) 0

/-- Accumulated sum of squares (the `normA` / `normB` loop accumulators). -/
def sumSq (v : List ℚ) : ℚ :=
  v.foldl (fun acc x => acc + x * x) 0

/-- Accumulated dot product of two equally long vectors. -/
def dotProduct (a b : List ℚ) : ℚ :=
  (a.zip b).foldl (fun acc p => acc + p.1 * p.2) 0

/-- Outcome of `cosineSimilarity`: either the guarded early `return 0`, or the
final division with its recorded operands `dot`, `normA`, `normB` (the
real-valued square roots and the quotient itself are not modelled, since no
claim inspects the returned quotient, only which branch executes). -/
inductive CosOutcome where
  | zero : CosOutcome
  | frac : ℚ → ℚ → ℚ → CosOutcome
  deriving DecidableEq

/-- Embeds `db.cosineSimilarity`: return 0 when the lengths differ or are
zero, compute the dot product and the two squared norms, return 0 when either
norm is zero, and only otherwise perform the division. -/
def cosineSimilarity (a b : List ℚ) : CosOutcome :=
  if a.length ≠ b.length ∨ a.length = 0 then .zero
  else if sumSq a = 0 ∨ sumSq b = 0 then .zero
  else .frac (dotProduct a b) (sumSq a) (sumSq b)

/-- The character loop of `stubEmbedding`: `for i, r := range text` walks byte
offsets `i` (advancing by the UTF-8 size of each rune) and adds `r/1000` at
slot `(r + i) % 384`. -/
def stubAccum : List ℚ → Nat → List Char → List ℚ
  | emb, _, [] => emb
  | emb, i, c :: cs =>
      stubAccum
        (emb.set ((c.toNat + i) % 384)
          (emb.getD ((c.toNat + i) % 384) 0 + (c.toNat : ℚ) / 1000))
        (i + utf8Size c) cs

/-- The un-normalized embedding accumulated by `stubEmbedding`. -/
def stubRaw (text : List Char) : List ℚ :=
  stubAccum (List.replicate 384 0) 0 (text.map goToLower)

/-- Embeds `ingest.stubEmbedding`: 384 slots, character-hash accumulation over
the lower-cased text, then scaling by `1/norm` when the accumulated norm is
positive. -/
def stubEmbedding (text : List Char) : List ℚ :=
  if 0 < sumSq (stubRaw text) then
    (stubRaw text).map (fun v => v * (1 / sumSq (stubRaw text)))
  else stubRaw text

/-- One row of the modelled store: a `documents` row together with its
`trigrams` postings and its optional `embeddings` row (`doc_id` is a primary
key there, so at most one embedding per document; the float32 blob encoding is
transparent in the model, the stored vector is held directly). -/
structure StoredDoc where
  id : Int
  chunkIndex : Int
  chunk : List Char
  trigrams : List (List Char)
  embedding : Option (List ℚ)
  deriving DecidableEq

/-- A search result row (`db.SearchResult`); the snippet is the raw bytes of
the Go string built by the snippet construction. -/
structure SearchResult where
  id : Int
  score : ℚ
  snippet : List Nat
  deriving DecidableEq

/-- The snippet construction inlined in `SearchTrigrams`: byte length check
against 200 and byte slicing, with `"..."` (bytes 46,46,46) appended on
truncation. -/
def trigramSnippet (chunk : List Char) : List Nat :=
  if 200 < (utf8Bytes chunk).length then (utf8Bytes chunk).take 200 ++ [46, 46, 46]
  else utf8Bytes chunk

/-- The snippet construction inlined in `SearchVectors` (textually identical
to the one in `SearchTrigrams`). -/
def vectorSnippet (chunk : List Char) : List Nat :=
  if 200 < (utf8Bytes chunk).length then (utf8Bytes chunk).take 200 ++ [46, 46, 46]
  else utf8Bytes chunk

/-- `COUNT(DISTINCT t.trigram)` over the postings of one document restricted
to the query trigrams. -/
def matchCount (q : List (List Char)) (d : StoredDoc) : Nat :=
  (dedupFirst [] (d.trigrams.filter (fun t => t ∈ q))).length

/-- Modelled from the spec: the `ORDER BY match_count DESC` of the SQL query
in `SearchTrigrams` is executed by SQLite, which is not part of this
repository's source; its tie order among equal counts is modelled as a stable
descending sort over the store scan order (ascending id, the `GROUP BY d.id`
order), matching the spec's deterministic ascending-id tie-breaking. -/
def sqlOrderByCountDesc (q : List (List Char)) (docs : List StoredDoc) : List StoredDoc :=
  List.insertionSort (fun d1 d2 => matchCount q d2 ≤ matchCount q d1) docs

/-- The rows produced by the SQL query of `SearchTrigrams`: documents having
at least one matching posting, ordered by match count descending, limited. -/
def searchTrigramRows (q : List (List Char)) (store : List StoredDoc) (limit : Nat) :
    List StoredDoc :=
  (sqlOrderByCountDesc q (store.filter (fun d => decide (0 < matchCount q d)))).take limit

/-- `GenerateTrigrams(strings.ToLower(query))` as called by `SearchTrigrams`. -/
def queryTrigrams (query : List Char) : List (List Char) :=
  GenerateTrigrams (query.map goToLower)

/-- Embeds `db.SearchTrigrams`: empty trigram set yields `nil`; otherwise each
candidate row is scored `match_count / |Q|` and paired with its snippet. -/
def SearchTrigrams (store : List StoredDoc) (query : List Char) (limit : Nat) :
    List SearchResult :=
  if (queryTrigrams query).isEmpty then []
  else
    (searchTrigramRows (queryTrigrams query) store limit).map
      (fun d =>
        { id := d.id
          score := (matchCount (queryTrigrams query) d : ℚ) / ((queryTrigrams query).length : ℚ)
          snippet := trigramSnippet d.chunk })

/-- Embeds `db.SearchVectors`: scan all stored embeddings (the
`embeddings JOIN documents` rows), score each with the similarity function
`sim` (abstracting the real-valued `cosineSimilarity`, whose branch structure
is modelled separately above), sort by score descending and truncate.  Go's
`sort.Slice` is unstable; the model fixes a stable sort, and no theorem below
depends on the tie order. -/
def SearchVectors (sim : List ℚ → List ℚ → ℚ) (store : List StoredDoc) (qe : List ℚ)
    (limit : Nat) : List SearchResult :=
  (List.insertionSort (fun r1 r2 => r2.score ≤ r1.score)
    ((store.filterMap (fun d => d.embedding.map (fun e => (d, e)))).map
      (fun p =>
        ({ id := p.1.id, score := sim qe p.2, snippet := vectorSnippet p.1.chunk }
          : SearchResult)))).take limit

/-- Go `scores[id] += delta` on the RRF score map: update the entry in place
or append a fresh one (a missing key reads as zero). -/
def bumpScore : List (Int × ℚ) → Int → ℚ → List (Int × ℚ)
  | [], id, d => [(id, d)]
  | (i, s) :: rest, id, d =>
      if i = id then (i, s + d) :: rest else (i, s) :: bumpScore rest id d

/-- One RRF accumulation loop (`for i, r := range results` adding
`1 / (k + i+1)` with `k = 60`); `rank` is the 1-based position. -/
def rrfAdd : List (Int × ℚ) → Nat → List SearchResult → List (Int × ℚ)
  | acc, _, [] => acc
  | acc, rank, r :: rs => rrfAdd (bumpScore acc r.id (1 / (60 + (rank : ℚ)))) (rank + 1) rs

/-- Go `snippets[id] = sn` on the snippet map. -/
def setSnippet : List (Int × List Nat) → Int → List Nat → List (Int × List Nat)
  | [], id, sn => [(id, sn)]
  | (i, s) :: rest, id, sn =>
      if i = id then (i, sn) :: rest else (i, s) :: setSnippet rest id sn

/-- Go `_, exists := snippets[id]`. -/
def containsKey (m : List (Int × List Nat)) (id : Int) : Bool :=
  m.any (fun p => p.1 == id)

/-- Go snippet map read (missing key reads the zero string). -/
def lookupSnippet : List (Int × List Nat) → Int → List Nat
  | [], _ => []
  | (i, s) :: rest, id => if i = id then s else lookupSnippet rest id

/-- First fusion loop's snippet writes (`snippets[r.ID] = r.Snippet`). -/
def snipAlways (m : List (Int × List Nat)) (rs : List SearchResult) : List (Int × List Nat) :=
  rs.foldl (fun m r => setSnippet m r.id r.snippet) m

/-- Second fusion loop's snippet writes (set only when the key is absent). -/
def snipIfAbsent (m : List (Int × List Nat)) (rs : List SearchResult) : List (Int × List Nat) :=
  rs.foldl (fun m r => if containsKey m r.id then m else setSnippet m r.id r.snippet) m

/-- The reciprocal-rank-fusion merge of `db.HybridSearch`: accumulate
`1/(60+rank)` per list into the score map, record snippets (trigram list
first, vector list only for ids not already present), sort the map entries by
score descending, truncate to `limit`, and attach snippets.  Go iterates its
score map in unspecified order before sorting; the model iterates in
first-insertion order, and no theorem below depends on that order. -/
def rrfFuse (trigramResults vectorResults : List SearchResult) (limit : Nat) :
    List SearchResult :=
  ((List.insertionSort (fun p1 p2 => p2.2 ≤ p1.2)
      (rrfAdd (rrfAdd [] 1 trigramResults) 1 vectorResults)).take limit).map
    (fun p =>
      { id := p.1
        score := p.2
        snippet := lookupSnippet (snipIfAbsent (snipAlways [] trigramResults) vectorResults) p.1 })

/-- Embeds `db.HybridSearch`: trigram search with `limit*2`; with no query
embedding return the trigram results truncated to `limit`; otherwise also run
the vector search with `limit*2` and fuse. -/
def HybridSearch (sim : List ℚ → List ℚ → ℚ) (store : List StoredDoc) (query : List Char)
    (queryEmbedding : Option (List ℚ)) (limit : Nat) : List SearchResult :=
  match queryEmbedding with
  | none => (SearchTrigrams store query (limit * 2)).take limit
  | some qe =>
      rrfFuse (SearchTrigrams store query (limit * 2)) (SearchVectors sim store qe (limit * 2))
        limit

/-- Embeds `db.GetDocument`: `SELECT ... WHERE id = ?`, yielding `nil` (here
`none`) and no error for a missing row. -/
def GetDocument (store : List StoredDoc) (id : Int) : Option StoredDoc :=
  store.find? (fun d => d.id == id)

/-- The text part of an MCP tool response: either a plain message (the
`writeToolError` path) or the marshalled document object with fields `id`,
`chunk`, `chunk_index` (the `writeToolResult` path; JSON encoding is
abstracted into the constructor). -/
inductive ToolText where
  | msg : String → ToolText
  | docPayload : Int → List Char → Int → ToolText
  deriving DecidableEq

/-- An `MCPCallToolResult` with its `IsError` flag. -/
structure ToolResult where
  text : ToolText
  isErr : Bool
  deriving DecidableEq

/-- Embeds `server.handleGetTool`: reject non-positive ids, report
"Document not found" as a structured tool error when the store has no such
row, and otherwise return the document payload. -/
def handleGetTool (store : List StoredDoc) (argId : Int) : ToolResult :=
  if argId ≤ 0 then ⟨ToolText.msg "Valid document ID is required", true⟩
  else
    match GetDocument store argId with
    | none => ⟨ToolText.msg "Document not found", true⟩
    | some d => ⟨ToolText.docPayload d.id d.chunk d.chunkIndex, false⟩

/-- A store holding one passage of 101 two-byte characters (202 UTF-8 bytes,
101 code points). -/
def c8chunk : List Char := List.replicate 101 'é'

/-- One-document store for the C8 counterexample. -/
def c8store : List StoredDoc := [⟨1, 0, c8chunk, [['é', 'é', 'é']], none⟩]


/-- Two-document store for the C4 witness. -/
def c4store : List StoredDoc :=
  [⟨1, 0, String.toList "abcd", [String.toList "abc"], none⟩,
   ⟨2, 1, String.toList "xyz", [String.toList "xyz"], none⟩]

/-- Go score-map read: the value at `id`, 0 for a missing key. -/
def scoreOf : List (Int × ℚ) → Int → ℚ
  | [], _ => 0
  | (i, s) :: rest, id => if i = id then s else scoreOf rest id

/-- The 0-based index of the first result with the given passage id. -/
def rankOf : List SearchResult → Int → Option Nat
  | [], _ => none
  | r :: rs, id => if r.id = id then some 0 else (rankOf rs id).map (fun k => k + 1)

/-- The partial RRF score a single list assigns to a passage id, per the
spec: `1 / (60 + rank)` at the 1-based rank of the passage in the list, and 0
for a list not containing the passage. -/
def specContrib (l : List SearchResult) (id : Int) : ℚ :=
  match rankOf l id with
  | some i => 1 / (60 + ((i : ℚ) + 1))
  | none => 0

/-- The total contribution one accumulation loop adds for a given id. -/
def rrfContrib : Nat → List SearchResult → Int → ℚ
  | _, [], _ => 0
  | rank, r :: rs, id =>
      (if r.id = id then 1 / (60 + (rank : ℚ)) else 0) + rrfContrib (rank + 1) rs id

section DedupLemmas

variable {α : Type} [DecidableEq α]

theorem dedupFirst_not_mem_seen {seen : List α} :
    ∀ {ts : List α} {x : α}, x ∈ dedupFirst seen ts → x ∉ seen := by
  intro ts
  induction ts generalizing seen with
  | nil => intro x hx; simp [dedupFirst] at hx
  | cons t ts ih =>
    intro x hx
    by_cases ht : t ∈ seen
    · exact ih (by simpa [dedupFirst, ht] using hx)
    · simp only [dedupFirst, if_neg ht] at hx
      rcases List.mem_cons.mp hx with rfl | hx
      · exact ht
      · intro hxs
        exact (ih hx) (List.mem_cons_of_mem _ hxs)

theorem dedupFirst_nodup : ∀ (seen ts : List α), (dedupFirst seen ts).Nodup := by
  intro seen ts
  induction ts generalizing seen with
  | nil => simp [dedupFirst]
  | cons t ts ih =>
    by_cases ht : t ∈ seen
    · simpa [dedupFirst, ht] using ih seen
    · simp only [dedupFirst, if_neg ht]
      refine List.nodup_cons.mpr ⟨?_, ih (t :: seen)⟩
      intro hmem
      exact (dedupFirst_not_mem_seen hmem) (List.mem_cons_self t seen)

theorem dedupFirst_subset {seen : List α} :
    ∀ {ts : List α} {x : α}, x ∈ dedupFirst seen ts → x ∈ ts := by
  intro ts
  induction ts generalizing seen with
  | nil => intro x hx; simp [dedupFirst] at hx
  | cons t ts ih =>
    intro x hx
    by_cases ht : t ∈ seen
    · exact List.mem_cons_of_mem _ (ih (by simpa [dedupFirst, ht] using hx))
    · simp only [dedupFirst, if_neg ht] at hx
      rcases List.mem_cons.mp hx with rfl | hx
      · exact List.mem_cons_self _ _
      · exact List.mem_cons_of_mem _ (ih hx)

end DedupLemmas

theorem triWindows_length_eq_three {runes : List Char} {t : List Char}
    (ht : t ∈ triWindows runes) : t.length = 3 := by
  rcases List.mem_map.mp ht with ⟨i, hi, rfl⟩
  have hi' : i < runes.length - 2 := List.mem_range.mp hi
  have h3 : 3 ≤ runes.length - i := by omega
  simp [List.length_take, List.length_drop]
  omega

theorem goTrimSpace_length_le (s : List Char) : (goTrimSpace s).length ≤ s.length := by
  unfold goTrimSpace
  calc ((s.dropWhile goIsSpace).reverse.dropWhile goIsSpace).reverse.length
      = ((s.dropWhile goIsSpace).reverse.dropWhile goIsSpace).length := List.length_reverse _
    _ ≤ (s.dropWhile goIsSpace).reverse.length := (List.dropWhile_sublist _).length_le
    _ = (s.dropWhile goIsSpace).length := List.length_reverse _
    _ ≤ s.length := (List.dropWhile_sublist _).length_le

/-- C5: `GenerateTrigrams` never produces duplicates, every produced entry is
exactly 3 code points, and an input of fewer than 3 code points yields the
empty list (so multi-byte characters count as one unit: the window slides over
code points). -/
theorem generateTrigrams_spec (s : List Char) :
    (GenerateTrigrams s).Nodup ∧
    (∀ t ∈ GenerateTrigrams s, t.length = 3) ∧
    (s.length < 3 → GenerateTrigrams s = []) := by
  refine ⟨?_, ?_, ?_⟩
  · unfold GenerateTrigrams
    split
    · simp
    · exact dedupFirst_nodup _ _
  · intro t ht
    unfold GenerateTrigrams at ht
    split at ht
    · simp at ht
    · exact triWindows_length_eq_three (dedupFirst_subset ht)
  · intro hlen
    unfold GenerateTrigrams
    split
    · rfl
    · have h1 : (goTrimSpace (s.map goToLower)).length ≤ s.length := by
        have := goTrimSpace_length_le (s.map goToLower)
        simpa using this
      have h2 : (goTrimSpace (s.map goToLower)).length - 2 = 0 := by omega
      simp [triWindows, h2, dedupFirst]

/-- Witness for C5 at a concrete short input: `"hi"` yields no trigrams. -/
theorem generateTrigrams_spec_witness :
    GenerateTrigrams ['h', 'i'] = [] :=
  (generateTrigrams_spec ['h', 'i']).2.2 (by decide)

theorem scanBackAux_bounds {rs : List Char} {p : Char → Bool} :
    ∀ {n i j : Nat}, scanBackAux rs p n i = some j → j ≤ i ∧ i < j + n := by
  intro n
  induction n with
  | zero => intro i j h; simp [scanBackAux] at h
  | succ n ih =>
    intro i j h
    simp only [scanBackAux] at h
    split at h
    · cases h; omega
    · have := ih h
      omega

theorem scanBack_bounds {rs : List Char} {p : Char → Bool} {lo hi j : Nat}
    (h : scanBack rs p lo hi = some j) : lo < j ∧ j ≤ hi := by
  have := scanBackAux_bounds h
  omega

theorem nextEnd_lb {size : Nat} (hsize : 1 ≤ size) (rs : List Char) (start : Nat) :
    start + size / 2 + 1 ≤ nextEnd size rs start ∨ nextEnd size rs start = rs.length := by
  simp only [nextEnd]
  by_cases he0 : rs.length < start + size
  · rw [if_pos he0, if_neg (lt_irrefl rs.length)]
    exact Or.inr rfl
  · rw [if_neg he0]
    by_cases h0 : start + size < rs.length
    · rw [if_pos h0]
      rcases hs : scanBack rs isSentB (start + size / 2) (start + size) with _ | i <;>
        simp only [hs]
      · clear hs
        rw [if_pos ((⟨trivial, h0⟩ : True ∧ start + size < rs.length))]
        rcases hsp : scanBack rs (fun c => c == ' ') (start + size / 2) (start + size)
          with _ | j <;> simp only [hsp]
        · exact Or.inl (show start + size / 2 + 1 ≤ start + size by omega)
        · have hb := scanBack_bounds hsp
          exact Or.inl (show start + size / 2 + 1 ≤ j by omega)
      · have hi := scanBack_bounds hs
        clear hs
        by_cases hcond : i + 1 = start + size ∧ i + 1 < rs.length
        · rw [if_pos hcond]
          rcases hsp : scanBack rs (fun c => c == ' ') (start + size / 2) (i + 1)
            with _ | j <;> simp only [hsp]
          · exact Or.inl (show start + size / 2 + 1 ≤ i + 1 by omega)
          · have hb := scanBack_bounds hsp
            exact Or.inl (show start + size / 2 + 1 ≤ j by omega)
        · rw [if_neg hcond]
          exact Or.inl (show start + size / 2 + 1 ≤ i + 1 by omega)
    · rw [if_neg h0]
      exact Or.inl (show start + size / 2 + 1 ≤ start + size by omega)

theorem nextEnd_le {size : Nat} (rs : List Char) (start : Nat) :
    nextEnd size rs start ≤ rs.length := by
  simp only [nextEnd]
  by_cases he0 : rs.length < start + size
  · rw [if_pos he0, if_neg (lt_irrefl rs.length)]
  · rw [if_neg he0]
    by_cases h0 : start + size < rs.length
    · rw [if_pos h0]
      rcases hs : scanBack rs isSentB (start + size / 2) (start + size) with _ | i <;>
        simp only [hs]
      · clear hs
        rw [if_pos ((⟨trivial, h0⟩ : True ∧ start + size < rs.length))]
        rcases hsp : scanBack rs (fun c => c == ' ') (start + size / 2) (start + size)
          with _ | j <;> simp only [hsp]
        · exact show start + size ≤ rs.length by omega
        · have hb := scanBack_bounds hsp
          exact show j ≤ rs.length by omega
      · have hi := scanBack_bounds hs
        clear hs
        by_cases hcond : i + 1 = start + size ∧ i + 1 < rs.length
        · rw [if_pos hcond]
          rcases hsp : scanBack rs (fun c => c == ' ') (start + size / 2) (i + 1)
            with _ | j <;> simp only [hsp]
          · exact show i + 1 ≤ rs.length by omega
          · have hb := scanBack_bounds hsp
            exact show j ≤ rs.length by omega
        · rw [if_neg hcond]
          exact show i + 1 ≤ rs.length by omega
    · rw [if_neg h0]
      exact show start + size ≤ rs.length by omega

theorem chunkLoop_isSome {size ov : Nat} (hov : ov ≤ size / 2) (hsize : 1 ≤ size)
    (rs : List Char) :
    ∀ (fuel start : Nat), rs.length - start < fuel →
      (chunkLoop size ov rs fuel start).isSome := by
  intro fuel
  induction fuel with
  | zero => intro start h; omega
  | succ fuel ih =>
    intro start h
    simp only [chunkLoop]
    split
    · simp
    · rename_i hlt
      have hend : rs.length ≤ nextEnd size rs start ∨
          start + size / 2 + 1 ≤ nextEnd size rs start := by
        rcases nextEnd_lb hsize rs start with h | h
        · exact Or.inr h
        · exact Or.inl (le_of_eq h.symm)
      have hprog : start + 1 ≤ nextEnd size rs start - ov := by
        rcases hend with hcase | hcase
        · omega
        · omega
      have hrec := ih (nextEnd size rs start - ov) (by omega)
      rcases Option.isSome_iff_exists.mp hrec with ⟨rest, hrest⟩
      rw [hrest]
      simp

/-- C1 (amended): whenever `overlap ≤ size / 2` (in particular for the
default configuration `size = 1000`, `overlap = 100`), every non-final
iteration of the `chunkText` loop strictly advances the window start, and the
loop terminates on every input.  The original claim, quantifying over all
`size > overlap ≥ 0`, is refuted by `chunkText_progress_cex` below. -/
theorem chunkText_progress (size ov : Nat) (hov : ov < size) (hhalf : ov ≤ size / 2) :
    (∀ (rs : List Char) (start : Nat),
        nextEnd size rs start < rs.length → start < nextStart size ov rs start) ∧
    (∀ text : List Char, (chunkText size ov text).isSome) := by
  have hsize : 1 ≤ size := by omega
  constructor
  · intro rs start hlt
    have := nextEnd_lb hsize rs start
    unfold nextStart
    omega
  · intro text
    simp only [chunkText]
    split
    · simp
    · rename_i hne
      exact chunkLoop_isSome hhalf hsize _ _ 0 (by omega)

/-- Witness for C1 (amended) at `size = 10`, `overlap = 3` on a concrete text. -/
theorem chunkText_progress_witness :
    (chunkText 10 3 (String.toList "aaaaaa bbbbbbbbbb")).isSome :=
  (chunkText_progress 10 3 (by decide) (by decide)).2 _

/-- Counterexample to C1 as stated: with `size = 10 > overlap = 6 ≥ 0` and the
text `"aaaaaa bbbbbbbbbb"`, the very first iteration cuts the window back to
the space at index 6 and the next start `end - overlap = 0` does not strictly
exceed the previous start `0`, although the window did not reach the text's
end; the loop never terminates (`chunkText` exhausts any fuel and yields
`none`). -/
theorem mem_dropWhile_of_not {c : Char} {p : Char → Bool} :
    ∀ {l : List Char}, c ∈ l → p c = false → c ∈ l.dropWhile p := by
  intro l
  induction l with
  | nil => intro h; simp at h
  | cons a l ih =>
    intro hmem hp
    by_cases ha : p a
    · rcases List.mem_cons.mp hmem with rfl | hmem
      · rw [ha] at hp; cases hp
      · simpa [List.dropWhile_cons, ha] using ih hmem hp
    · simpa [List.dropWhile_cons, ha] using hmem

theorem mem_goTrimSpace {c : Char} {l : List Char} (hmem : c ∈ l)
    (hp : goIsSpace c = false) : c ∈ goTrimSpace l := by
  unfold goTrimSpace
  rw [List.mem_reverse]
  exact mem_dropWhile_of_not (List.mem_reverse.mpr (mem_dropWhile_of_not hmem hp)) hp

theorem exists_dropWhile_eq_drop (p : Char → Bool) :
    ∀ l : List Char, ∃ n, l.dropWhile p = l.drop n := by
  intro l
  induction l with
  | nil => exact ⟨0, rfl⟩
  | cons a l ih =>
    by_cases ha : p a
    · rcases ih with ⟨n, hn⟩
      exact ⟨n + 1, by simpa [List.dropWhile_cons, ha] using hn⟩
    · exact ⟨0, by simp [List.dropWhile_cons, ha]⟩

theorem dropWhile_head_not {p : Char → Bool} {d : Char} :
    ∀ {l : List Char}, l.dropWhile p ≠ [] → p ((l.dropWhile p).headD d) = false := by
  intro l
  induction l with
  | nil => intro h; simp at h
  | cons a l ih =>
    intro hne
    by_cases ha : p a
    · rw [List.dropWhile_cons, if_pos ha] at hne ⊢
      exact ih hne
    · rw [List.dropWhile_cons, if_neg ha]
      simpa using Bool.eq_false_iff.mpr ha

theorem goTrimSpace_head_not {d : Char} {l : List Char} (hne : goTrimSpace l ≠ []) :
    goIsSpace ((goTrimSpace l).headD d) = false := by
  classical
  set l1 := l.dropWhile goIsSpace with hl1
  rcases exists_dropWhile_eq_drop goIsSpace l1.reverse with ⟨n, hn⟩
  have hsplit : l1 = goTrimSpace l ++ (l1.reverse.take n).reverse := by
    unfold goTrimSpace
    rw [← hl1, hn]
    conv_lhs => rw [← List.reverse_reverse l1, ← List.take_append_drop n l1.reverse]
    rw [List.reverse_append]
  rcases hr : goTrimSpace l with _ | ⟨a, r⟩
  · exact absurd hr hne
  · have hhead : l1.headD d = a := by
      rw [hsplit, hr]
      rfl
    have hl1ne : l1 ≠ [] := by
      rw [hsplit, hr]
      simp
    have := dropWhile_head_not (p := goIsSpace) (d := d) (l := l) (by rw [← hl1]; exact hl1ne)
    rw [← hl1] at this
    rw [hhead] at this
    simpa [hr] using this

theorem normalizeCRLF_head {l : List Char} {d : Char} (hne : l ≠ [])
    (hr : l.headD d ≠ '\r') :
    normalizeCRLF l ≠ [] ∧ (normalizeCRLF l).headD d = l.headD d := by
  rcases l with _ | ⟨a, l⟩
  · exact absurd rfl hne
  · have ha : a ≠ '\r' := by simpa using hr
    rw [normalizeCRLF.eq_def]
    split
    · simp_all
    · rename_i heq
      rw [List.cons.injEq] at heq
      exact absurd heq.1 ha
    · rename_i c rest heq
      rw [List.cons.injEq] at heq
      constructor
      · simp
      · simp [heq.1]

theorem drop_subset_drop (l : List Char) {m n : Nat} (h : m ≤ n) :
    ∀ x ∈ l.drop n, x ∈ l.drop m := by
  intro x hx
  have hdd : l.drop n = (l.drop m).drop (n - m) := by
    rw [List.drop_drop]
    congr 1
    omega
  rw [hdd] at hx
  exact List.drop_subset _ _ hx

theorem chunkLoop_cover {size ov : Nat} (rs : List Char) :
    ∀ (fuel start : Nat) (chunks : List (List Char)),
      chunkLoop size ov rs fuel start = some chunks →
      ∀ c ∈ rs.drop start, goIsSpace c = false → ∃ ch ∈ chunks, c ∈ ch := by
  intro fuel
  induction fuel with
  | zero => intro start chunks h; cases h
  | succ fuel ih =>
    intro start chunks h c hc hcp
    rw [show rs.drop start
          = ((rs.drop start).take (nextEnd size rs start - start)
              ++ (rs.drop start).drop (nextEnd size rs start - start))
        from (List.take_append_drop _ _).symm] at hc
    simp only [chunkLoop] at h
    split at h
    · rename_i hend
      have htake : (rs.drop start).take (nextEnd size rs start - start) = rs.drop start := by
        apply List.take_of_length_le
        simp only [List.length_drop]
        omega
      rw [htake] at hc
      rcases List.mem_append.mp hc with hc1 | hc1
      · have hpiece : c ∈ goTrimSpace ((rs.drop start).take (nextEnd size rs start - start)) := by
          rw [htake]
          exact mem_goTrimSpace hc1 hcp
        have hpne : ¬ (goTrimSpace ((rs.drop start).take (nextEnd size rs start - start))).isEmpty = true := by
          intro hE
          rw [List.isEmpty_iff] at hE
          rw [hE] at hpiece
          cases hpiece
        rw [if_neg hpne] at h
        cases h
        exact ⟨_, List.mem_singleton.mpr rfl, hpiece⟩
      · rw [List.drop_eq_nil_of_le
            (by simp only [List.length_drop]; omega)] at hc1
        cases hc1
    · rename_i hend
      rcases hrec : chunkLoop size ov rs fuel (nextEnd size rs start - ov) with _ | rest
      · rw [hrec] at h; cases h
      · rw [hrec] at h
        dsimp only at h
        rcases List.mem_append.mp hc with hc1 | hc1
        · have hpiece : c ∈ goTrimSpace ((rs.drop start).take (nextEnd size rs start - start)) :=
            mem_goTrimSpace hc1 hcp
          have hpne : ¬ (goTrimSpace ((rs.drop start).take (nextEnd size rs start - start))).isEmpty = true := by
            intro hE
            rw [List.isEmpty_iff] at hE
            rw [hE] at hpiece
            cases hpiece
          rw [if_neg hpne] at h
          cases h
          exact ⟨_, List.mem_cons_self _ _, hpiece⟩
        · have hc2 : c ∈ rs.drop (nextEnd size rs start - ov) := by
            have hdd : (rs.drop start).drop (nextEnd size rs start - start)
                = rs.drop (start + (nextEnd size rs start - start)) :=
              List.drop_drop _ _ _
            rw [hdd] at hc1
            exact drop_subset_drop rs (by omega) c hc1
          have hrest := ih (nextEnd size rs start - ov) rest hrec c hc2 hcp
          rcases hrest with ⟨ch, hch, hcch⟩
          refine ⟨ch, ?_, hcch⟩
          split at h <;> cases h
          · exact hch
          · exact List.mem_cons_of_mem _ hch

theorem chunkText_progress_cex :
    (6 : Nat) < 10 ∧
    nextEnd 10 (String.toList "aaaaaa bbbbbbbbbb") 0 <
      (String.toList "aaaaaa bbbbbbbbbb").length ∧
    nextStart 10 6 (String.toList "aaaaaa bbbbbbbbbb") 0 = 0 ∧
    chunkText 10 6 (String.toList "aaaaaa bbbbbbbbbb") = none := by
  decide


/-- C7 (amended): for `overlap ≤ size / 2` (so the walk terminates, see C1)
and any text whose trimmed, line-ending-normalized form is non-empty,
`chunkText` returns a non-empty list of chunks and every non-white-space
character of the trimmed input appears in some chunk.  White-space characters
at chunk boundaries may be dropped by the per-chunk trim, which refutes the
claim's full-coverage reading (see `chunkText_cover_cex`). -/
theorem chunkText_cover (size ov : Nat) (hov : ov < size) (hhalf : ov ≤ size / 2)
    (text : List Char) (hne : normalizeCRLF (goTrimSpace text) ≠ []) :
    ∃ chunks, chunkText size ov text = some chunks ∧ chunks ≠ [] ∧
      ∀ c ∈ normalizeCRLF (goTrimSpace text), goIsSpace c = false →
        ∃ ch ∈ chunks, c ∈ ch := by
  have hsize : 1 ≤ size := by omega
  have hlen : ¬ (normalizeCRLF (goTrimSpace text)).length = 0 := by
    intro h0
    exact hne (List.length_eq_zero.mp h0)
  have hsome := chunkLoop_isSome hhalf hsize (normalizeCRLF (goTrimSpace text))
      ((normalizeCRLF (goTrimSpace text)).length + 1) 0 (by omega)
  rcases Option.isSome_iff_exists.mp hsome with ⟨chunks, hchunks⟩
  refine ⟨chunks, ?_, ?_, ?_⟩
  · simp only [chunkText]
    rw [if_neg hlen]
    exact hchunks
  · rcases hT : normalizeCRLF (goTrimSpace text) with _ | ⟨c0, t1⟩
    · exact absurd hT hne
    · have htrimne : goTrimSpace text ≠ [] := by
        intro h0
        rw [h0] at hT
        simp [normalizeCRLF] at hT
      have hhead0 : goIsSpace ((goTrimSpace text).headD 'a') = false :=
        goTrimSpace_head_not htrimne
      have hnotr : (goTrimSpace text).headD 'a' ≠ '\r' := by
        intro hr
        rw [hr] at hhead0
        exact absurd hhead0 (by decide)
      have hnh := normalizeCRLF_head (l := goTrimSpace text) (d := 'a') htrimne hnotr
      have hc0 : c0 = (goTrimSpace text).headD 'a' := by
        have h2 := hnh.2
        rw [hT] at h2
        simpa using h2
      have hc0mem : c0 ∈ normalizeCRLF (goTrimSpace text) := by
        rw [hT]
        exact List.mem_cons_self _ _
      have hcov := chunkLoop_cover (normalizeCRLF (goTrimSpace text)) _ 0 chunks hchunks c0
        (by simpa using hc0mem) (by rw [hc0]; exact hhead0)
      rcases hcov with ⟨ch, hch, _⟩
      exact List.ne_nil_of_mem hch
  · intro c hc hcp
    exact chunkLoop_cover (normalizeCRLF (goTrimSpace text)) _ 0 chunks hchunks c
      (by simpa using hc) hcp

/-- Witness for C7 (amended) at `size = 5`, `overlap = 2`, text `"ab cd"`. -/
theorem chunkText_cover_witness :
    ∃ chunks, chunkText 5 2 (String.toList "ab cd") = some chunks ∧ chunks ≠ [] ∧
      ∀ c ∈ normalizeCRLF (goTrimSpace (String.toList "ab cd")), goIsSpace c = false →
        ∃ ch ∈ chunks, c ∈ ch :=
  chunkText_cover 5 2 (by decide) (by decide) _ (by decide)

/-- Counterexample to C7 as stated: on the non-empty input `"a b"` with
`size = 2 > overlap = 0`, `chunkText` returns `["a", "b"]`, losing the space:
the space is a character of the trimmed input that appears in no chunk, so the
concatenation of the chunks does not cover the original text. -/
theorem chunkText_cover_cex :
    chunkText 2 0 (String.toList "a b") = some [['a'], ['b']] ∧
    (' ' ∈ normalizeCRLF (goTrimSpace (String.toList "a b"))) ∧
    ¬ ∃ ch ∈ [['a'], ['b']], ' ' ∈ ch := by
  decide

/-- C6: `cosineSimilarity` returns exactly 0 whenever either vector is empty,
the dimensions differ, or either accumulated norm is zero; and the division is
reached only with both norms non-zero, so no division by zero ever occurs. -/
theorem cosineSimilarity_guard (a b : List ℚ) :
    ((a = [] ∨ b = [] ∨ a.length ≠ b.length ∨ sumSq a = 0 ∨ sumSq b = 0) →
      cosineSimilarity a b = CosOutcome.zero) ∧
    (∀ d na nb, cosineSimilarity a b = CosOutcome.frac d na nb →
      na = sumSq a ∧ nb = sumSq b ∧ na ≠ 0 ∧ nb ≠ 0) := by
  constructor
  · intro h
    unfold cosineSimilarity
    by_cases h1 : a.length ≠ b.length ∨ a.length = 0
    · rw [if_pos h1]
    · rw [if_neg h1]
      push_neg at h1
      have h2 : sumSq a = 0 ∨ sumSq b = 0 := by
        rcases h with ha | hb | hlen | hs | hs
        · exact absurd (by rw [ha]; rfl) h1.2
        · exact absurd (by rw [h1.1, hb]; rfl) h1.2
        · exact absurd hlen (not_not.mpr h1.1)
        · exact Or.inl hs
        · exact Or.inr hs
      rw [if_pos h2]
  · intro d na nb h
    unfold cosineSimilarity at h
    split at h
    · cases h
    · split at h
      · cases h
      · rename_i h1 h2
        push_neg at h2
        injection h with hd hna hnb
        refine ⟨hna.symm, hnb.symm, ?_, ?_⟩
        · rw [← hna]
          exact h2.1
        · rw [← hnb]
          exact h2.2

/-- Witness for C6: mismatched lengths yield the zero outcome. -/
theorem cosineSimilarity_guard_witness :
    cosineSimilarity [(1 : ℚ), 0] [1, 0, 0] = CosOutcome.zero :=
  (cosineSimilarity_guard [(1 : ℚ), 0] [1, 0, 0]).1 (by decide)

theorem stubAccum_length :
    ∀ (cs : List Char) (emb : List ℚ) (i : Nat), (stubAccum emb i cs).length = emb.length := by
  intro cs
  induction cs with
  | nil => intro emb i; rfl
  | cons c cs ih =>
    intro emb i
    simp only [stubAccum]
    rw [ih]
    exact List.length_set emb _ _

theorem stubEmbedding_length (s : List Char) : (stubEmbedding s).length = 384 := by
  unfold stubEmbedding
  have hraw : (stubRaw s).length = 384 := by
    unfold stubRaw
    rw [stubAccum_length]
    exact List.length_replicate 384 0
  split
  · rw [List.length_map]
    exact hraw
  · exact hraw

/-- C10: `stubEmbedding` always returns a vector of exactly 384 entries (and,
being a pure function of its input, is deterministic); consequently comparing
two stub embeddings with `cosineSimilarity` can never reach the
dimension-mismatch zero policy — the zero outcome can arise only from the
zero-norm policy. -/
theorem stubEmbedding_dim (s1 s2 : List Char) :
    (stubEmbedding s1).length = 384 ∧
    (cosineSimilarity (stubEmbedding s1) (stubEmbedding s2) = CosOutcome.zero →
      sumSq (stubEmbedding s1) = 0 ∨ sumSq (stubEmbedding s2) = 0) := by
  refine ⟨stubEmbedding_length s1, ?_⟩
  intro h
  unfold cosineSimilarity at h
  rw [if_neg (by rw [stubEmbedding_length s1, stubEmbedding_length s2]; simp)] at h
  split at h
  · assumption
  · cases h

/-- Witness for C10 at the empty input. -/
theorem stubEmbedding_dim_witness :
    (stubEmbedding (String.toList "")).length = 384 ∧
    (cosineSimilarity (stubEmbedding (String.toList ""))
        (stubEmbedding (String.toList "")) = CosOutcome.zero →
      sumSq (stubEmbedding (String.toList "")) = 0 ∨
      sumSq (stubEmbedding (String.toList "")) = 0) :=
  stubEmbedding_dim (String.toList "") (String.toList "")


/-- C9: a lookup of an id not present in the store yields `none` (Go
`nil, nil`), and the `gdpr_get` handler turns that into the structured
"Document not found" tool error. -/
theorem getDocument_not_found (store : List StoredDoc) (id : Int)
    (hpos : 0 < id) (habs : ∀ d ∈ store, d.id ≠ id) :
    GetDocument store id = none ∧
    handleGetTool store id = ⟨ToolText.msg "Document not found", true⟩ := by
  have hnone : GetDocument store id = none := by
    unfold GetDocument
    rw [List.find?_eq_none]
    intro d hd
    simpa using habs d hd
  refine ⟨hnone, ?_⟩
  unfold handleGetTool
  rw [if_neg (by omega), hnone]

/-- Witness for C9 at a concrete store without id 2. -/
theorem getDocument_not_found_witness :
    GetDocument [⟨1, 0, ['a'], [], none⟩] 2 = none ∧
    handleGetTool [⟨1, 0, ['a'], [], none⟩] 2 =
      ⟨ToolText.msg "Document not found", true⟩ :=
  getDocument_not_found [⟨1, 0, ['a'], [], none⟩] 2 (by decide) (by decide)

theorem searchTrigramRows_take (q : List (List Char)) (store : List StoredDoc)
    {m n : Nat} (h : m ≤ n) :
    (searchTrigramRows q store n).take m = searchTrigramRows q store m := by
  unfold searchTrigramRows
  rw [List.take_take]
  congr 1
  omega

/-- C3: with no query embedding, `HybridSearch` returns exactly the lexical
ranking truncated to `limit` — it does not fail and no vector scan affects the
result. -/
theorem hybridSearch_lexical_fallback (sim : List ℚ → List ℚ → ℚ) (store : List StoredDoc)
    (query : List Char) (limit : Nat) (hlim : 0 < limit) :
    HybridSearch sim store query none limit = SearchTrigrams store query limit := by
  simp only [HybridSearch, SearchTrigrams]
  by_cases hq : (queryTrigrams query).isEmpty
  · rw [if_pos hq, if_pos hq]
    exact List.take_nil
  · rw [if_neg hq, if_neg hq]
    rw [← List.map_take, searchTrigramRows_take _ _ (by omega)]

/-- Witness for C3 at a concrete one-document store. -/
theorem hybridSearch_lexical_fallback_witness :
    HybridSearch (fun _ _ => 0) [⟨1, 0, String.toList "abcd", [String.toList "abc"], none⟩]
        (String.toList "abc") none 3 =
      SearchTrigrams [⟨1, 0, String.toList "abcd", [String.toList "abc"], none⟩]
        (String.toList "abc") 3 :=
  hybridSearch_lexical_fallback (fun _ _ => 0) _ (String.toList "abc") 3 (by decide)

theorem utf8EncodeChar_length (c : Char) : (utf8EncodeChar c).length = utf8Size c := by
  simp only [utf8EncodeChar, utf8Size]
  split_ifs <;> rfl

theorem utf8Bytes_length (s : List Char) : (utf8Bytes s).length = byteLen s := by
  induction s with
  | nil => rfl
  | cons c s ih =>
    simp only [utf8Bytes, byteLen, List.map_cons, List.flatten_cons, List.length_append,
      List.sum_cons] at ih ⊢
    rw [utf8EncodeChar_length, ih]

/-- C8 (amended): in both search paths the snippet construction is the same
function of the stored chunk, and it operates on raw UTF-8 bytes (Go `len`
and string slicing), not characters: the snippet equals the passage bytes
when the passage is at most 200 bytes, else the first 200 bytes with "..."
appended.  The character-based reading of the claim is refuted by
`snippet_spec_cex`. -/
theorem snippet_spec (sim : List ℚ → List ℚ → ℚ) (store : List StoredDoc)
    (query : List Char) (qe : List ℚ) (limit : Nat) :
    (∀ chunk : List Char,
      trigramSnippet chunk = vectorSnippet chunk ∧
      (byteLen chunk ≤ 200 → trigramSnippet chunk = utf8Bytes chunk) ∧
      (200 < byteLen chunk →
        trigramSnippet chunk = (utf8Bytes chunk).take 200 ++ [46, 46, 46])) ∧
    (∀ r ∈ SearchTrigrams store query limit, ∃ d ∈ store,
      r.id = d.id ∧ r.snippet = trigramSnippet d.chunk) ∧
    (∀ r ∈ SearchVectors sim store qe limit, ∃ d ∈ store,
      r.id = d.id ∧ r.snippet = vectorSnippet d.chunk) := by
  refine ⟨?_, ?_, ?_⟩
  · intro chunk
    refine ⟨rfl, ?_, ?_⟩
    · intro hle
      unfold trigramSnippet
      rw [if_neg (by rw [utf8Bytes_length]; omega)]
    · intro hgt
      unfold trigramSnippet
      rw [if_pos (by rw [utf8Bytes_length]; omega)]
  · intro r hr
    unfold SearchTrigrams at hr
    split at hr
    · cases hr
    · rcases List.mem_map.mp hr with ⟨d, hd, rfl⟩
      have hd1 : d ∈ sqlOrderByCountDesc (queryTrigrams query)
          (store.filter (fun d => decide (0 < matchCount (queryTrigrams query) d))) :=
        List.take_subset _ _ hd
      have hd2 := (List.mem_insertionSort _).mp hd1
      exact ⟨d, (List.mem_filter.mp hd2).1, rfl, rfl⟩
  · intro r hr
    unfold SearchVectors at hr
    have hr1 := List.take_subset _ _ hr
    have hr2 := (List.mem_insertionSort _).mp hr1
    rcases List.mem_map.mp hr2 with ⟨p, hp, rfl⟩
    rcases List.mem_filterMap.mp hp with ⟨d, hd, hmap⟩
    rcases Option.map_eq_some'.mp hmap with ⟨e, _, rfl⟩
    exact ⟨d, hd, rfl, rfl⟩

/-- Witness for C8 (amended) on a short chunk. -/
theorem snippet_spec_witness :
    trigramSnippet ['a'] = vectorSnippet ['a'] ∧ trigramSnippet ['a'] = utf8Bytes ['a'] :=
  ⟨((snippet_spec (fun _ _ => 0) [] [] [] 0).1 ['a']).1,
   ((snippet_spec (fun _ _ => 0) [] [] [] 0).1 ['a']).2.1 (by decide)⟩

set_option maxRecDepth 100000 in
/-- Counterexample to C8 as stated: the passage has 101 characters (at most
200), yet the returned snippet is not the passage text — the code truncates at
200 bytes, splitting the passage after 100 characters and appending "...". -/
theorem snippet_spec_cex :
    c8chunk.length ≤ 200 ∧
    (SearchTrigrams c8store (String.toList "ééé") 10).length = 1 ∧
    ∀ r ∈ SearchTrigrams c8store (String.toList "ééé") 10,
      r.id = 1 ∧ r.snippet ≠ utf8Bytes c8chunk := by
  decide


section StableSortLex

variable {α : Type} (key : α → Nat) (idf : α → Int)

theorem orderedInsert_lex {a : α} :
    ∀ {s : List α},
      s.Pairwise (fun x y => key y < key x ∨ (key x = key y ∧ idf x < idf y)) →
      (∀ x ∈ s, idf a < idf x) →
      (s.orderedInsert (fun x y => key y ≤ key x) a).Pairwise
        (fun x y => key y < key x ∨ (key x = key y ∧ idf x < idf y)) := by
  intro s
  induction s with
  | nil =>
    intro _ _
    simp
  | cons b s ih =>
    intro hp hid
    simp only [List.orderedInsert]
    split
    · rename_i hba
      refine List.pairwise_cons.mpr ⟨?_, hp⟩
      intro y hy
      rcases List.mem_cons.mp hy with rfl | hys
      · rcases lt_or_eq_of_le hba with h | h
        · exact Or.inl h
        · exact Or.inr ⟨h.symm, hid _ (List.mem_cons_self _ _)⟩
      · have hby := (List.pairwise_cons.mp hp).1 y hys
        rcases hby with h | h
        · exact Or.inl (lt_of_lt_of_le h hba)
        · rcases lt_or_eq_of_le hba with h2 | h2
          · exact Or.inl (h.1 ▸ h2)
          · exact Or.inr ⟨by rw [← h2, h.1], hid _ (List.mem_cons_of_mem _ hys)⟩
    · rename_i hba
      push_neg at hba
      refine List.pairwise_cons.mpr
        ⟨?_, ih (List.pairwise_cons.mp hp).2 (fun x hx => hid _ (List.mem_cons_of_mem _ hx))⟩
      intro y hy
      have hmem : y = a ∨ y ∈ s := by
        have := (List.perm_orderedInsert (fun x y => key y ≤ key x) a s).mem_iff.mp hy
        simpa using this
      rcases hmem with rfl | hys
      · exact Or.inl hba
      · exact (List.pairwise_cons.mp hp).1 y hys

theorem insertionSort_lex :
    ∀ {l : List α}, l.Pairwise (fun x y => idf x < idf y) →
      (List.insertionSort (fun x y => key y ≤ key x) l).Pairwise
        (fun x y => key y < key x ∨ (key x = key y ∧ idf x < idf y)) := by
  intro l
  induction l with
  | nil =>
    intro _
    simp
  | cons a l ih =>
    intro hp
    rw [List.insertionSort]
    apply orderedInsert_lex
    · exact ih (List.pairwise_cons.mp hp).2
    · intro x hx
      exact (List.pairwise_cons.mp hp).1 x ((List.mem_insertionSort _).mp hx)

end StableSortLex

/-- C4: over a store with strictly increasing ids (the store assigns ids
monotonically), a query with a non-empty trigram set yields results scored
`match_count / |Q|` (never normalized by passage length), restricted to
passages with at least one matching posting, ordered by score descending with
ties broken by ascending passage id, truncated to `limit`. -/
theorem searchTrigrams_spec (store : List StoredDoc) (query : List Char) (limit : Nat)
    (hq : queryTrigrams query ≠ [])
    (hids : store.Pairwise (fun d1 d2 => d1.id < d2.id)) :
    (SearchTrigrams store query limit).length ≤ limit ∧
    (SearchTrigrams store query limit).Pairwise
      (fun r1 r2 => r2.score < r1.score ∨ (r1.score = r2.score ∧ r1.id < r2.id)) ∧
    ∀ r ∈ SearchTrigrams store query limit, ∃ d ∈ store,
      r.id = d.id ∧ 0 < matchCount (queryTrigrams query) d ∧
      r.score = (matchCount (queryTrigrams query) d : ℚ) /
        ((queryTrigrams query).length : ℚ) := by
  have hqe : ¬ (queryTrigrams query).isEmpty = true := by
    simpa [List.isEmpty_iff] using hq
  have hqlen : 0 < ((queryTrigrams query).length : ℚ) := by
    have : 0 < (queryTrigrams query).length := List.length_pos.mpr hq
    exact_mod_cast this
  refine ⟨?_, ?_, ?_⟩
  · unfold SearchTrigrams
    rw [if_neg hqe, List.length_map]
    exact List.length_take_le _ _
  · unfold SearchTrigrams
    rw [if_neg hqe]
    rw [List.pairwise_map]
    have hlex : (searchTrigramRows (queryTrigrams query) store limit).Pairwise
        (fun d1 d2 => matchCount (queryTrigrams query) d2 < matchCount (queryTrigrams query) d1 ∨
          (matchCount (queryTrigrams query) d1 = matchCount (queryTrigrams query) d2 ∧
            d1.id < d2.id)) := by
      unfold searchTrigramRows sqlOrderByCountDesc
      refine List.Pairwise.sublist (List.take_sublist _ _) ?_
      exact insertionSort_lex (matchCount (queryTrigrams query)) (fun d => d.id)
        (hids.filter _)
    refine hlex.imp ?_
    intro d1 d2 h
    rcases h with h | h
    · left
      have hcast : (matchCount (queryTrigrams query) d2 : ℚ) <
          (matchCount (queryTrigrams query) d1 : ℚ) := by exact_mod_cast h
      exact (div_lt_div_iff_of_pos_right hqlen).mpr hcast
    · right
      exact ⟨by rw [h.1], h.2⟩
  · intro r hr
    unfold SearchTrigrams at hr
    rw [if_neg hqe] at hr
    rcases List.mem_map.mp hr with ⟨d, hd, rfl⟩
    have hd1 := List.take_subset _ _ hd
    have hd2 := (List.mem_insertionSort _).mp hd1
    have hd3 := List.mem_filter.mp hd2
    exact ⟨d, hd3.1, rfl, by simpa using hd3.2, rfl⟩

/-- Witness for C4 at a concrete store and query. -/
theorem searchTrigrams_spec_witness :
    (SearchTrigrams c4store (String.toList "abc") 5).length ≤ 5 ∧
    (SearchTrigrams c4store (String.toList "abc") 5).Pairwise
      (fun r1 r2 => r2.score < r1.score ∨ (r1.score = r2.score ∧ r1.id < r2.id)) ∧
    (∀ r ∈ SearchTrigrams c4store (String.toList "abc") 5, ∃ d ∈ c4store,
      r.id = d.id ∧ 0 < matchCount (queryTrigrams (String.toList "abc")) d ∧
      r.score = (matchCount (queryTrigrams (String.toList "abc")) d : ℚ) /
        ((queryTrigrams (String.toList "abc")).length : ℚ)) :=
  searchTrigrams_spec c4store (String.toList "abc") 5 (by decide) (by decide)

theorem scoreOf_bumpScore (id id' : Int) (d : ℚ) :
    ∀ l : List (Int × ℚ),
      scoreOf (bumpScore l id d) id' = scoreOf l id' + (if id' = id then d else 0) := by
  intro l
  induction l with
  | nil =>
    simp only [bumpScore, scoreOf, zero_add]
    by_cases h : id = id'
    · rw [if_pos h, if_pos h.symm]
    · rw [if_neg h, if_neg (fun hh => h hh.symm)]
  | cons p rest ih =>
    rcases p with ⟨i, sc⟩
    by_cases hi : i = id
    · simp only [bumpScore, if_pos hi, scoreOf]
      by_cases hii : i = id'
      · rw [if_pos hii, if_pos hii, if_pos (by rw [← hii, hi])]
      · rw [if_neg hii, if_neg hii, if_neg (by intro hh; exact hii (by rw [hi, hh])), add_zero]
    · simp only [bumpScore, if_neg hi, scoreOf]
      by_cases hii : i = id'
      · rw [if_pos hii, if_pos hii, if_neg (by intro hh; exact hi (by rw [hii, hh])), add_zero]
      · rw [if_neg hii, if_neg hii, ih]

theorem scoreOf_rrfAdd (id : Int) :
    ∀ (rs : List SearchResult) (acc : List (Int × ℚ)) (rank : Nat),
      scoreOf (rrfAdd acc rank rs) id = scoreOf acc id + rrfContrib rank rs id := by
  intro rs
  induction rs with
  | nil =>
    intro acc rank
    simp [rrfAdd, rrfContrib]
  | cons r rs ih =>
    intro acc rank
    simp only [rrfAdd, rrfContrib]
    rw [ih, scoreOf_bumpScore]
    have hite : (if id = r.id then (1 : ℚ) / (60 + (rank : ℚ)) else 0)
        = (if r.id = id then (1 : ℚ) / (60 + (rank : ℚ)) else 0) := by
      by_cases h : r.id = id
      · rw [if_pos h, if_pos h.symm]
      · rw [if_neg h, if_neg (fun hh => h hh.symm)]
    rw [hite]
    ring

theorem rrfContrib_of_not_mem {id : Int} :
    ∀ {l : List SearchResult} {rank : Nat},
      id ∉ l.map (fun r => r.id) → rrfContrib rank l id = 0 := by
  intro l
  induction l with
  | nil => intro rank _; rfl
  | cons r rs ih =>
    intro rank h
    simp only [List.map_cons, List.mem_cons, not_or] at h
    simp only [rrfContrib, if_neg (fun hh : r.id = id => h.1 hh.symm), zero_add]
    exact ih h.2

theorem rrfContrib_eq_rank (id : Int) :
    ∀ (l : List SearchResult) (rank : Nat), (l.map (fun r => r.id)).Nodup →
      rrfContrib rank l id =
        (match rankOf l id with
         | some i => 1 / (60 + ((rank : ℚ) + (i : ℚ)))
         | none => 0) := by
  intro l
  induction l with
  | nil =>
    intro rank _
    simp [rrfContrib, rankOf]
  | cons r rs ih =>
    intro rank hnd
    simp only [List.map_cons, List.nodup_cons] at hnd
    by_cases hr : r.id = id
    · have hz : rrfContrib (rank + 1) rs id = 0 :=
        rrfContrib_of_not_mem (by rw [← hr]; exact hnd.1)
      simp only [rrfContrib, if_pos hr, hz, add_zero, rankOf]
      push_cast
      ring_nf
    · have hrec := ih (rank + 1) hnd.2
      simp only [rrfContrib, if_neg hr, zero_add, rankOf]
      rw [hrec]
      rcases hfi : rankOf rs id with _ | i
      · rfl
      · simp only [Option.map_some']
        push_cast
        ring_nf

theorem rrfContrib_eq_specContrib (l : List SearchResult) (id : Int)
    (h : (l.map (fun r => r.id)).Nodup) : rrfContrib 1 l id = specContrib l id := by
  rw [rrfContrib_eq_rank id l 1 h]
  unfold specContrib
  rcases hfi : rankOf l id with _ | i
  · simp only [hfi]
  · simp only [hfi]
    push_cast
    ring_nf

theorem bumpScore_keys_mem {id x : Int} {d : ℚ} :
    ∀ {l : List (Int × ℚ)}, x ∈ (bumpScore l id d).map (fun p => p.1) →
      x ∈ l.map (fun p => p.1) ∨ x = id := by
  intro l
  induction l with
  | nil =>
    intro h
    simp [bumpScore] at h
    exact Or.inr h
  | cons p rest ih =>
    intro h
    rcases p with ⟨i, sc⟩
    by_cases hi : i = id
    · simp only [bumpScore, if_pos hi, List.map_cons, List.mem_cons] at h ⊢
      tauto
    · simp only [bumpScore, if_neg hi, List.map_cons, List.mem_cons] at h ⊢
      rcases h with h | h
      · exact Or.inl (Or.inl h)
      · rcases ih h with h2 | h2
        · exact Or.inl (Or.inr h2)
        · exact Or.inr h2

theorem bumpScore_keys_nodup {id : Int} {d : ℚ} :
    ∀ {l : List (Int × ℚ)}, (l.map (fun p => p.1)).Nodup →
      ((bumpScore l id d).map (fun p => p.1)).Nodup := by
  intro l
  induction l with
  | nil =>
    intro _
    simp [bumpScore]
  | cons p rest ih =>
    intro h
    rcases p with ⟨i, sc⟩
    simp only [List.map_cons, List.nodup_cons] at h
    by_cases hi : i = id
    · simp only [bumpScore, if_pos hi, List.map_cons, List.nodup_cons]
      exact h
    · simp only [bumpScore, if_neg hi, List.map_cons, List.nodup_cons]
      refine ⟨?_, ih h.2⟩
      intro hmem
      rcases bumpScore_keys_mem hmem with h2 | h2
      · exact h.1 h2
      · exact hi h2

theorem rrfAdd_keys_nodup :
    ∀ (rs : List SearchResult) (acc : List (Int × ℚ)) (rank : Nat),
      (acc.map (fun p => p.1)).Nodup → ((rrfAdd acc rank rs).map (fun p => p.1)).Nodup := by
  intro rs
  induction rs with
  | nil =>
    intro acc rank h
    exact h
  | cons r rs ih =>
    intro acc rank h
    exact ih _ _ (bumpScore_keys_nodup h)

theorem scoreOf_eq_of_mem :
    ∀ {m : List (Int × ℚ)}, (m.map (fun p => p.1)).Nodup →
      ∀ {p : Int × ℚ}, p ∈ m → scoreOf m p.1 = p.2 := by
  intro m
  induction m with
  | nil =>
    intro _ p hp
    simp at hp
  | cons q rest ih =>
    intro hnd p hp
    rcases q with ⟨i, sc⟩
    simp only [List.map_cons, List.nodup_cons] at hnd
    rcases List.mem_cons.mp hp with rfl | hp
    · simp [scoreOf]
    · have hne : i ≠ p.1 := by
        intro hh
        exact hnd.1 (by rw [hh]; exact List.mem_map.mpr ⟨p, hp, rfl⟩)
      simp only [scoreOf, if_neg hne]
      exact ih hnd.2 hp

/-- C2: reciprocal-rank fusion over any two result lists with duplicate-free
ids: every fused result's score is the sum over the two lists of `1/(60+rank)`
at the passage's 1-based rank (0 for a list missing the passage), the output
is ordered by summed score descending, and it has at most `limit` entries. -/
theorem rrfFuse_spec (tr vr : List SearchResult) (limit : Nat) (hlim : 0 < limit)
    (htr : (tr.map (fun r => r.id)).Nodup) (hvr : (vr.map (fun r => r.id)).Nodup) :
    (rrfFuse tr vr limit).length ≤ limit ∧
    (rrfFuse tr vr limit).Pairwise (fun r1 r2 => r2.score ≤ r1.score) ∧
    ∀ r ∈ rrfFuse tr vr limit, r.score = specContrib tr r.id + specContrib vr r.id := by
  have hkeys : ((rrfAdd (rrfAdd [] 1 tr) 1 vr).map (fun p => p.1)).Nodup :=
    rrfAdd_keys_nodup vr _ 1 (rrfAdd_keys_nodup tr [] 1 (by simp))
  refine ⟨?_, ?_, ?_⟩
  · unfold rrfFuse
    rw [List.length_map]
    exact List.length_take_le _ _
  · unfold rrfFuse
    rw [List.pairwise_map]
    refine List.Pairwise.sublist (List.take_sublist _ _) ?_
    letI : IsTotal (Int × ℚ) (fun p1 p2 => p2.2 ≤ p1.2) := ⟨fun a b => le_total b.2 a.2⟩
    letI : IsTrans (Int × ℚ) (fun p1 p2 => p2.2 ≤ p1.2) :=
      ⟨fun _ _ _ hab hbc => le_trans hbc hab⟩
    exact List.sorted_insertionSort _ _
  · intro r hr
    unfold rrfFuse at hr
    rcases List.mem_map.mp hr with ⟨p, hp, rfl⟩
    have hp1 := List.take_subset _ _ hp
    have hp2 := (List.mem_insertionSort _).mp hp1
    have hscore : scoreOf (rrfAdd (rrfAdd [] 1 tr) 1 vr) p.1 = p.2 :=
      scoreOf_eq_of_mem hkeys hp2
    have hsum : scoreOf (rrfAdd (rrfAdd [] 1 tr) 1 vr) p.1 =
        specContrib tr p.1 + specContrib vr p.1 := by
      rw [scoreOf_rrfAdd, scoreOf_rrfAdd]
      simp only [scoreOf]
      rw [zero_add, rrfContrib_eq_specContrib tr _ htr, rrfContrib_eq_specContrib vr _ hvr]
    rw [← hscore, hsum]

/-- Witness for C2 at concrete result lists. -/
theorem rrfFuse_spec_witness :
    (rrfFuse [⟨1, 1, []⟩, ⟨2, (1 : ℚ)/2, []⟩] [⟨2, (9 : ℚ)/10, []⟩] 5).length ≤ 5 ∧
    (rrfFuse [⟨1, 1, []⟩, ⟨2, (1 : ℚ)/2, []⟩] [⟨2, (9 : ℚ)/10, []⟩] 5).Pairwise
      (fun r1 r2 => r2.score ≤ r1.score) ∧
    ∀ r ∈ rrfFuse [⟨1, 1, []⟩, ⟨2, (1 : ℚ)/2, []⟩] [⟨2, (9 : ℚ)/10, []⟩] 5,
      r.score = specContrib [⟨1, 1, []⟩, ⟨2, (1 : ℚ)/2, []⟩] r.id +
        specContrib [⟨2, (9 : ℚ)/10, []⟩] r.id :=
  rrfFuse_spec [⟨1, 1, []⟩, ⟨2, (1 : ℚ)/2, []⟩] [⟨2, (9 : ℚ)/10, []⟩] 5
    (by decide) (by decide) (by decide)

end GdprMcp
